import Mathlib

/-!
Verification of the `form-repeatable` web component's group templating and
lifecycle engine (`src/form-repeatable.js`).

JS strings are modelled as `List Char`.  The component's counting regex
`/(.*)(\d+)(.*)/` is modelled by a faithful backtracking engine (`bt` and
`jsMatch` below): `.` matches any character except a line terminator, the
first `(.*)` is greedy, and the match is searched from the leftmost start
position.  JS numbers that hold small integers are modelled as `Nat`/`Int`;
double rounding beyond 2^53 is outside the model, so theorems about
attribute parsing are stated for inputs where double arithmetic is exact.
-/

namespace FormRepeatable

/-- Line terminator characters of JS regular expressions (`.` does not match
these): LF, CR, LINE SEPARATOR (U+2028), PARAGRAPH SEPARATOR (U+2029). -/
def isTermC (c : Char) : Bool :=
  c = '\n' || c = '\r' || c = Char.ofNat 0x2028 || c = Char.ofNat 0x2029

/-- Head of the remaining input is an ASCII digit (`\d` can start matching). -/
def digitHead : List Char → Bool
  | [] => false
  | c :: _ => c.isDigit

/-- Backtracking loop of the regex `(.*)(\d+)(.*)` on one line segment.
`revPre` is the reversed candidate for the greedy first group and `rest` is
the input after it; the candidate shrinks one character at a time (greedy
backtracking) until `(\d+)` can match at the front of `rest`. -/
def bt : List Char → List Char → Option (List Char × List Char × List Char)
  | [], rest =>
    if digitHead rest then
      some ([], rest.takeWhile Char.isDigit, rest.dropWhile Char.isDigit)
    else none
  | c :: r2, rest =>
    if digitHead rest then
      some ((c :: r2).reverse, rest.takeWhile Char.isDigit, rest.dropWhile Char.isDigit)
    else bt r2 (c :: rest)

/-- Maximal run of non-line-terminator characters at the front of the input:
the segment within which `(.*)(\d+)(.*)` must match at a given start. -/
def lineOf (s : List Char) : List Char := s.takeWhile (fun c => !isTermC c)

/-- Model of `text.match(/(.*)(\d+)(.*)/)`: try every start position from the
left; at each, run the greedy backtracking engine on the current line
segment.  Returns the three capture groups `(prefix, digits, suffix)`. -/
def jsMatch : List Char → Option (List Char × List Char × List Char)
  | [] => none
  | c :: rest =>
    match bt (lineOf (c :: rest)).reverse [] with
    | some r => some r
    | none => jsMatch rest

/-- Placeholder marker `\x7bn\x7d` used in templates. -/
def marker : List Char := ['{', 'n', '}']

/-- Whether the string contains an occurrence of the placeholder marker. -/
def hasMarker : List Char → Bool
  | '{' :: 'n' :: '}' :: _ => true
  | _ :: rest => hasMarker rest
  | [] => false

/-- Model of `value.replace(/\x7bn\x7d/g, rep)`: replace every occurrence of
the marker, scanning left to right. -/
def fillStr (rep : List Char) : List Char → List Char
  | '{' :: 'n' :: '}' :: rest => rep ++ fillStr rep rest
  | c :: rest => c :: fillStr rep rest
  | [] => []

/-- Numeric value of a digit character. -/
def digitVal (c : Char) : Nat := c.toNat - 48

/-- Value of a digit string, folding left (most significant digit first). -/
def valFrom (a : Nat) (ds : List Char) : Nat :=
  ds.foldl (fun x c => 10 * x + digitVal c) a

/-- Fuel-driven loop producing the decimal digits of a natural number,
least significant digit first pushed onto `acc`. -/
def decReprGo : Nat → Nat → List Char → List Char
  | 0, _, acc => acc
  | fuel + 1, n, acc =>
    if n < 10 then Nat.digitChar (n % 10) :: acc
    else decReprGo fuel (n / 10) (Nat.digitChar (n % 10) :: acc)

/-- Decimal string of a natural number, as JS `Number.prototype.toString`
produces for a nonnegative integer. -/
def decRepr (n : Nat) : List Char := decReprGo (n + 1) n []

/-- Decimal string of an integer (sign included). -/
def intRepr (v : Int) : List Char :=
  if v < 0 then '-' :: decRepr v.natAbs else decRepr v.toNat

/-- String whitespace skipped by JS `parseInt` (the common characters: space,
tab, line feed, carriage return, vertical tab, form feed, no-break space;
the remaining Unicode space separators are outside the model). -/
def isJsSpace (c : Char) : Bool :=
  c = ' ' || c = '\t' || c = '\n' || c = '\r' || c = Char.ofNat 11 ||
    c = Char.ofNat 12 || c = Char.ofNat 0xA0

/-- Value of the leading digit run, if nonempty. -/
def leadDigits (u : List Char) : Option Nat :=
  let ds := u.takeWhile Char.isDigit
  if ds.isEmpty then none else some (valFrom 0 ds)

/-- Sign-and-digits phase of `parseInt`: after whitespace skipping, read an
optional sign and then the longest digit prefix; `none` models `NaN`. -/
def parseIntSigned : List Char → Option Int
  | [] => none
  | c :: u =>
    if c = '-' then (leadDigits u).map (fun n => -(n : Int))
    else if c = '+' then (leadDigits u).map (fun n => (n : Int))
    else (leadDigits (c :: u)).map (fun n => (n : Int))

/-- Model of `parseInt(s, 10)`: skip whitespace, then parse the signed digit
prefix. -/
def parseIntJs (s : List Char) : Option Int :=
  parseIntSigned (s.dropWhile isJsSpace)

/-- Validation phase of the `min` getter on the parsed value: `NaN`, a
nonpositive value, or an attribute string differing from the value's
canonical decimal string (`attr !== value.toString()`) falls back to the
default 1 with a warning. -/
def jsMinParsed : Option Int → List Char → Nat × Bool
  | none, _ => (1, true)
  | some v, s =>
    if v ≤ 0 then (1, true)
    else if s ≠ intRepr v then (1, true)
    else (v.toNat, false)

/-- Model of the `min` getter: result value together with whether a warning
was reported (`console.warn`).  A missing or empty attribute silently
defaults to 1 (the source's `if (!attr) return 1` guard); otherwise the
parsed value is validated by `jsMinParsed`. -/
def jsMinGet : Option (List Char) → Nat × Bool
  | none => (1, false)
  | some s => if s.isEmpty then (1, false) else jsMinParsed (parseIntJs s) s

/-- Validation phase of the `max` getter on the parsed value: `NaN` or a
value not exceeding the effective `min` is rejected (treated as unset) with
a warning.  (The source's `!Number.isInteger(value)` test can never fire
after a non-`NaN` `parseInt` and is not modelled separately.) -/
def jsMaxParsed (minA : Option (List Char)) : Option Int → Option Nat × Bool
  | none => (none, true)
  | some v =>
    if v ≤ ((jsMinGet minA).1 : Int) then (none, true) else (some v.toNat, false)

/-- Model of the `max` getter: `none` in the first component models the
unset (unlimited) limit.  A present attribute is prefix-parsed with
`parseInt` and validated by `jsMaxParsed`. -/
def jsMaxGet : Option (List Char) → Option (List Char) → Option Nat × Bool
  | none, _ => (none, false)
  | some s, minA => jsMaxParsed minA (parseIntJs s)

/-- Rewrite performed by `_templatize` on one string: if the counting regex
matches, the whole string becomes `prefix ++ marker ++ suffix`. -/
def templatizeStr (s : List Char) : List Char :=
  match jsMatch s with
  | none => s
  | some (p, _, q) => p ++ marker ++ q

/-- Rewrite performed by `_updateGroupNumber` on one string: if the counting
regex matches, the whole string becomes `prefix ++ decimal(k) ++ suffix`. -/
def updateStr (k : Nat) (s : List Char) : List Char :=
  match jsMatch s with
  | none => s
  | some (p, _, q) => p ++ decRepr k ++ q

/-- Number read back out of a string by the Pattern Matcher: the value of the
digits capture group, if the regex matches. -/
def extractNum (s : List Char) : Option Nat :=
  (jsMatch s).map (fun r => valFrom 0 r.2.1)

/-- Split a string at the first occurrence of the marker, if any. -/
def splitMarker : List Char → Option (List Char × List Char)
  | '{' :: 'n' :: '}' :: rest => some ([], rest)
  | c :: rest => (splitMarker rest).map (fun pr => (c :: pr.1, pr.2))
  | [] => none

/-- No character of the string is an ASCII digit. -/
def NoDigit (s : List Char) : Prop := ∀ c ∈ s, c.isDigit = false

/-- No character of the string is a line terminator. -/
def NoTerm (s : List Char) : Prop := ∀ c ∈ s, isTermC c = false

instance : DecidablePred NoDigit := fun s => List.decidableBAll _ s

instance : DecidablePred NoTerm := fun s => List.decidableBAll _ s

/-- Template strings for which filling then renumbering is well behaved:
either marker-free and digit-free, or a single marker whose surrounding text
has no line terminators and whose suffix has no digits. -/
def goodStr (s : List Char) : Bool :=
  match splitMarker s with
  | none => s.all (fun c => !c.isDigit)
  | some (p, q) =>
    p.all (fun c => !isTermC c) && q.all (fun c => !isTermC c) &&
      q.all (fun c => !c.isDigit) && !hasMarker q

/-! ### The content tree -/

/-- Live state of a form control, modelling the DOM properties the
aggregator reads: `name`, `type`, current `value`, `checked`, `disabled`,
and the selected files of a file input. -/
structure CtrlInfo where
  name : String
  ctype : String
  value : String
  checked : Bool
  disabled : Bool
  files : List String
deriving DecidableEq

/-- A content element: tag name, attribute list in iteration order, own text
content (the engine only reads or writes text on LABEL and LEGEND elements,
which in supported markup have no element children), form-control state, and
child elements. -/
inductive Elem where
  | mk (tag : String) (attrs : List (String × List Char)) (text : List Char)
      (ctrl : CtrlInfo) (children : List Elem)

def Elem.tag : Elem → String
  | .mk t _ _ _ _ => t

def Elem.attrs : Elem → List (String × List Char)
  | .mk _ a _ _ _ => a

def Elem.text : Elem → List Char
  | .mk _ _ x _ _ => x

def Elem.ctrl : Elem → CtrlInfo
  | .mk _ _ _ c _ => c

def Elem.children : Elem → List Elem
  | .mk _ _ _ _ cs => cs

/-- Tags whose text content the engine rewrites
(`element.tagName === 'LABEL' || element.tagName === 'LEGEND'`). -/
def isLbl (t : String) : Bool := t = "LABEL" || t = "LEGEND"

mutual

/-- Model of `_templatize(element)`: rewrite every attribute value, the text
of LABEL/LEGEND elements, and recurse through the children. -/
def templatizeE : Elem → Elem
  | .mk tag attrs text ctrl cs =>
    .mk tag (attrs.map (fun a => (a.1, templatizeStr a.2)))
      (if isLbl tag then templatizeStr text else text) ctrl (templatizeEs cs)

def templatizeEs : List Elem → List Elem
  | [] => []
  | c :: cs => templatizeE c :: templatizeEs cs

end

mutual

/-- Model of `_fillTemplate(element, number)`: replace every marker in every
attribute value and in LABEL/LEGEND text by the decimal string of `n`,
recursing through the children. -/
def fillE (n : Nat) : Elem → Elem
  | .mk tag attrs text ctrl cs =>
    .mk tag (attrs.map (fun a => (a.1, fillStr (decRepr n) a.2)))
      (if isLbl tag then fillStr (decRepr n) text else text) ctrl (fillEs n cs)

def fillEs (n : Nat) : List Elem → List Elem
  | [] => []
  | c :: cs => fillE n c :: fillEs n cs

end

mutual

/-- Model of `_updateGroupNumber(element, number)`: re-match the counting
regex on every attribute value and LABEL/LEGEND text, replacing the digits
group by the decimal string of `k`, recursing through the children. -/
def updateE (k : Nat) : Elem → Elem
  | .mk tag attrs text ctrl cs =>
    .mk tag (attrs.map (fun a => (a.1, updateStr k a.2)))
      (if isLbl tag then updateStr k text else text) ctrl (updateEs k cs)

def updateEs (k : Nat) : List Elem → List Elem
  | [] => []
  | c :: cs => updateE k c :: updateEs k cs

end

mutual

/-- Templates whose every attribute value and LABEL/LEGEND text is a good
string, hereditarily. -/
def goodElem : Elem → Bool
  | .mk tag attrs text _ cs =>
    attrs.all (fun a => goodStr a.2) && (!isLbl tag || goodStr text) && goodElems cs

def goodElems : List Elem → Bool
  | [] => true
  | c :: cs => goodElem c && goodElems cs

end

/-- Descendants of the listed elements in document (preorder) order. -/
def descendantsList : List Elem → List Elem
  | [] => []
  | .mk t a x c gc :: cs => .mk t a x c gc :: (descendantsList gc ++ descendantsList cs)

/-- Descendant elements of `e` in document order, `e` itself excluded, as
`querySelectorAll` enumerates matches inside a group element. -/
def Elem.descendants (e : Elem) : List Elem := descendantsList e.children

/-! ### The form value aggregator -/

/-- Tags matched by the `'input, select, textarea'` selector. -/
def isCtrlTag (t : String) : Bool := t = "INPUT" || t = "SELECT" || t = "TEXTAREA"

/-- Entries contributed by one control in `_updateFormValue`: only named,
enabled controls contribute; checkboxes and radios only when checked (value
defaulting to "on" when empty), file inputs one entry per selected file, and
every other control its current value. -/
def entriesOf (i : CtrlInfo) : List (String × String) :=
  if !(i.name = "") && !i.disabled then
    if i.ctype = "checkbox" || i.ctype = "radio" then
      if i.checked then [(i.name, if i.value = "" then "on" else i.value)] else []
    else if i.ctype = "file" then i.files.map (fun f => (i.name, f))
    else [(i.name, i.value)]
  else []

/-- Model of `_updateFormValue` over a list of group elements: for each group
in order, every control-tagged descendant contributes its entries. -/
def aggregate (groups : List Elem) : List (String × String) :=
  groups.flatMap fun g =>
    (g.descendants.filter fun d => isCtrlTag d.tag).flatMap fun d => entriesOf d.ctrl

/-- Contribution of one descendant as the spec words it (Form Value
Aggregator, §4.6): an input-bearing descendant with a non-empty name that is
not disabled contributes; checkbox/radio-like controls contribute
`(name, value-or-on)` only if currently checked; file-like controls
contribute one entry per selected file; all other controls contribute
`(name, currentValue)` unconditionally; every other descendant contributes
nothing. -/
def specContribution (d : Elem) : List (String × String) :=
  if isCtrlTag d.tag = false then []
  else if d.ctrl.name = "" then []
  else if d.ctrl.disabled then []
  else if d.ctrl.ctype = "checkbox" || d.ctrl.ctype = "radio" then
    if d.ctrl.checked then
      [(d.ctrl.name, if d.ctrl.value = "" then "on" else d.ctrl.value)]
    else []
  else if d.ctrl.ctype = "file" then d.ctrl.files.map (fun f => (d.ctrl.name, f))
  else [(d.ctrl.name, d.ctrl.value)]

/-- Aggregation contract as worded by the spec: in group order, each
descendant contributes per `specContribution`. -/
def aggregateSpec (groups : List Elem) : List (String × String) :=
  groups.flatMap fun g => g.descendants.flatMap specContribution

/-! ### Component state and operations -/

/-- One instantiated repetition: fresh id, concrete element, and the index
recorded at creation time (the source never updates it afterwards). -/
structure Group where
  id : Nat
  element : Elem
  index : Nat

/-- Component state: extracted template, ordered group list, monotonically
increasing id counter, the raw `min` and `max` attribute strings, and the
aggregated form value last published through `ElementInternals`. -/
structure CState where
  template : Option Elem
  groups : List Group
  nextId : Nat
  minAttr : Option (List Char)
  maxAttr : Option (List Char)
  published : List (String × String)

/-- Effective `min` (the `min` getter's value). -/
def effMin (s : CState) : Nat := (jsMinGet s.minAttr).1

/-- Effective `max` (the `max` getter's value, `none` meaning unlimited). -/
def effMax (s : CState) : Option Nat := (jsMaxGet s.maxAttr s.minAttr).1

/-- Model of `_updateFormValue`: republish the aggregated value. -/
def updateFormValue (s : CState) : CState :=
  { s with published := aggregate (s.groups.map fun g => g.element) }

/-- Model of `Array.prototype.findIndex`. -/
def findIdxFrom (p : Group → Bool) : List Group → Option Nat
  | [] => none
  | g :: gs => if p g then some 0 else (findIdxFrom p gs).map (fun i => i + 1)

/-- Model of `Array.prototype.splice(i, 1)`. -/
def spliceOne : List Group → Nat → List Group
  | [], _ => []
  | _ :: gs, 0 => gs
  | g :: gs, i + 1 => g :: spliceOne gs i

/-- Model of `_renumberGroups`' forEach loop: the group at offset `i` from
the start of the list is renumbered to `k + i`; the source starts the
counter at `index + 1 = 1`. -/
def renumberFrom (k : Nat) : List Group → List Group
  | [] => []
  | g :: gs => { g with element := updateE k g.element } :: renumberFrom (k + 1) gs

/-- Tail of `_addGroup` once the `max` guard has passed: without a template
the call is a no-op (an error is logged); otherwise the template is cloned,
filled with `length + 1`, appended, the form value republished, and the
`form-repeatable:added` event dispatched with the new group and count. -/
def addGroupCore (s : CState) : CState × Option (Group × Nat) :=
  match s.template with
  | none => (s, none)
  | some t =>
    let g : Group := ⟨s.nextId, fillE (s.groups.length + 1) t, s.groups.length⟩
    let s2 := updateFormValue
      { s with groups := s.groups ++ [g], nextId := s.nextId + 1 }
    (s2, some (g, s2.groups.length))

/-- Model of `_addGroup`: refuse silently when `max` is set and
`length >= max`.  The second component is the dispatched event detail. -/
def addGroup (s : CState) : CState × Option (Group × Nat) :=
  match effMax s with
  | some m => if m ≤ s.groups.length then (s, none) else addGroupCore s
  | none => addGroupCore s

/-- Model of `_removeGroup(groupId)`: a no-op when the id is not found or
`length <= min`; otherwise splice the group out, renumber every remaining
group sequentially, republish the form value, and dispatch the
`form-repeatable:removed` event with the removed group and new count. -/
def removeGroup (s : CState) (gid : Nat) : CState × Option (Group × Nat) :=
  match findIdxFrom (fun g => g.id == gid) s.groups with
  | none => (s, none)
  | some i =>
    if s.groups.length ≤ effMin s then (s, none)
    else
      match s.groups[i]? with
      | none => (s, none)
      | some removed =>
        let s2 := updateFormValue
          { s with groups := renumberFrom 1 (spliceOne s.groups i) }
        (s2, some (removed, s2.groups.length))

/-- Groups adopted from pre-existing light-DOM children: ids continue the
counter, indices follow position, elements are taken verbatim. -/
def adoptFrom (nid idx : Nat) : List Elem → List Group
  | [] => []
  | e :: es => ⟨nid, e, idx⟩ :: adoptFrom (nid + 1) (idx + 1) es

/-- Model of `_initializeGroups`: with no children and a template, create
one group through `_addGroup`; otherwise adopt every child verbatim. -/
def initializeGroups (children : List Elem) (s : CState) : CState :=
  if children.isEmpty && s.template.isSome then (addGroup s).1
  else
    { s with groups := s.groups ++ adoptFrom s.nextId 0 children,
             nextId := s.nextId + children.length }

/-- Model of `_extractTemplate`: the content of an explicit template child
is used as is (the author writes the markers); otherwise the first child is
cloned and templatized; with no child at all there is no template. -/
def extractTemplate (explicitTmpl : Option Elem) (children : List Elem) : Option Elem :=
  match explicitTmpl with
  | some t => some t
  | none =>
    match children with
    | [] => none
    | c :: _ => some (templatizeE c)

/-- Model of `connectedCallback`: extract the template, initialize the
groups, render, and publish the aggregated form value. -/
def connectedInit (minA maxA : Option (List Char)) (explicitTmpl : Option Elem)
    (children : List Elem) : CState :=
  updateFormValue (initializeGroups children
    ⟨extractTemplate explicitTmpl children, [], 1, minA, maxA, []⟩)

/-- Externally triggered operations on a connected component. -/
inductive Op where
  | add : Op
  | remove (gid : Nat) : Op
  | setMin (v : Option (List Char)) : Op
  | setMax (v : Option (List Char)) : Op

/-- One transition: button activations run `_addGroup` and `_removeGroup`;
an observed attribute change re-renders and republishes the form value
(`attributeChangedCallback`) but touches nothing else. -/
def stepOp (s : CState) : Op → CState
  | .add => (addGroup s).1
  | .remove gid => (removeGroup s gid).1
  | .setMin v => updateFormValue { s with minAttr := v }
  | .setMax v => updateFormValue { s with maxAttr := v }

/-- Run a sequence of operations. -/
def runOps (s : CState) (ops : List Op) : CState := ops.foldl stepOp s

/-- Operations the claims' add/remove sequences range over. -/
def isStructural : Op → Bool
  | .add => true
  | .remove _ => true
  | .setMin _ => false
  | .setMax _ => false

/-- The length bounds of the Group Collection invariant. -/
def inBounds (s : CState) : Bool :=
  decide (effMin s ≤ s.groups.length) &&
    (match effMax s with
     | none => true
     | some m => decide (s.groups.length ≤ m))

/-- Numbering invariant: the group at position `i` is the template filled
with sequence number `i + 1`. -/
def Numbered (t : Elem) (s : CState) : Prop :=
  ∀ i (h : i < s.groups.length), (s.groups.get ⟨i, h⟩).element = fillE (i + 1) t

/-- Every state along a run, including the first and last, has at most nine
groups (all sequence numbers stay single-digit). -/
def traceLe9 : CState → List Op → Bool
  | s, [] => decide (s.groups.length ≤ 9)
  | s, o :: ops => decide (s.groups.length ≤ 9) && traceLe9 (stepOp s o) ops

/-! ### Sample data used to exercise the definitions -/

/-- Plain text-input control state with no name. -/
def sampleCtrl : CtrlInfo := ⟨"", "text", "", false, false, []⟩

/-- Template element with one numbered attribute, as in the spec's
Scenario A markup. -/
def stopTemplate : Elem := Elem.mk "INPUT" [("id", "stop-{n}".toList)] [] sampleCtrl []

/-- Component initialized from an explicit template and no light-DOM
children, with `min` and `max` unset. -/
def initSample : CState := connectedInit none none (some stopTemplate) []

/-- State with two groups and the attribute `max="2"` (so the maximum is
reached). -/
def maxedState : CState :=
  ⟨some stopTemplate, [⟨1, stopTemplate, 0⟩, ⟨2, stopTemplate, 1⟩], 3,
    none, some "2".toList, []⟩

/-- State with two groups and the attribute `min="2"` (so the minimum is
reached). -/
def minnedState : CState :=
  ⟨some stopTemplate, [⟨1, stopTemplate, 0⟩, ⟨2, stopTemplate, 1⟩], 3,
    some "2".toList, none, []⟩

/-! ### Basic character facts -/

theorem isTermC_eq_false_of_isDigit {c : Char} (h : c.isDigit = true) :
    isTermC c = false := by
  by_contra hc
  rw [Bool.not_eq_false] at hc
  unfold isTermC at hc
  simp only [Bool.or_eq_true, decide_eq_true_eq] at hc
  rcases hc with ((h1 | h1) | h1) | h1 <;> subst h1 <;> exact absurd h (by decide)

theorem digitChar_isDigit {k : Nat} (h : k < 10) : (Nat.digitChar k).isDigit = true := by
  interval_cases k <;> decide

theorem digitVal_digitChar {k : Nat} (h : k < 10) : digitVal (Nat.digitChar k) = k := by
  interval_cases k <;> decide

/-! ### The backtracking engine -/

theorem digitHead_eq_false {s : List Char} (h : NoDigit s) : digitHead s = false := by
  cases s with
  | nil => rfl
  | cons c r => exact h c (List.mem_cons_self c r)

theorem takeWhile_isDigit_eq_nil {q : List Char} (h : NoDigit q) :
    q.takeWhile Char.isDigit = [] := by
  cases q with
  | nil => rfl
  | cons c r => simp [List.takeWhile_cons, h c (List.mem_cons_self c r)]

theorem dropWhile_isDigit_eq_self {q : List Char} (h : NoDigit q) :
    q.dropWhile Char.isDigit = q := by
  cases q with
  | nil => rfl
  | cons c r => simp [List.dropWhile_cons, h c (List.mem_cons_self c r)]

theorem bt_digitHead {revPre rest : List Char} (h : digitHead rest = true) :
    bt revPre rest =
      some (revPre.reverse, rest.takeWhile Char.isDigit, rest.dropWhile Char.isDigit) := by
  cases revPre with
  | nil => rw [bt, if_pos h]; rfl
  | cons c r2 => rw [bt, if_pos h]

theorem bt_skip (u revPre : List Char) :
    ∀ rest, NoDigit u → digitHead rest = false →
      bt (u ++ revPre) rest = bt revPre (u.reverse ++ rest) := by
  induction u with
  | nil => intro rest _ _; simp
  | cons c u2 ih =>
    intro rest hu hrest
    rw [List.cons_append, bt, if_neg (by simp [hrest])]
    rw [ih (c :: rest) (fun x hx => hu x (List.mem_cons_of_mem c hx))
      (show digitHead (c :: rest) = false from hu c (List.mem_cons_self c u2))]
    simp

theorem bt_found {p q : List Char} {d : Char} (hq : NoDigit q) (hd : d.isDigit = true) :
    bt (p ++ d :: q).reverse [] = some (p, [d], q) := by
  have h1 : (p ++ d :: q).reverse = q.reverse ++ (d :: p.reverse) := by
    simp [List.reverse_append]
  rw [h1, bt_skip q.reverse (d :: p.reverse) [] (fun c hc => hq c (List.mem_reverse.mp hc)) rfl]
  rw [List.reverse_reverse, List.append_nil]
  rw [bt, if_neg (by simp [digitHead_eq_false hq])]
  rw [bt_digitHead (show digitHead (d :: q) = true from hd)]
  simp [List.takeWhile_cons, List.dropWhile_cons, hd, takeWhile_isDigit_eq_nil hq,
    dropWhile_isDigit_eq_self hq]

theorem bt_no_digit {s : List Char} (h : NoDigit s) : bt s.reverse [] = none := by
  have h1 : s.reverse = s.reverse ++ ([] : List Char) := by simp
  rw [h1, bt_skip s.reverse [] [] (fun c hc => h c (List.mem_reverse.mp hc)) rfl]
  rw [List.reverse_reverse, List.append_nil, bt, if_neg (by simp [digitHead_eq_false h])]

/-! ### Characterizing the match -/

theorem lineOf_eq_self {s : List Char} (h : NoTerm s) : lineOf s = s := by
  unfold lineOf
  rw [List.takeWhile_eq_self_iff]
  intro x hx
  simp [h x hx]

theorem jsMatch_eq_none {s : List Char} (h : NoDigit s) : jsMatch s = none := by
  induction s with
  | nil => rfl
  | cons c rest ih =>
    rw [jsMatch]
    have hline : NoDigit (lineOf (c :: rest)) := fun x hx =>
      h x ((List.takeWhile_sublist _).subset hx)
    rw [bt_no_digit hline]
    exact ih fun x hx => h x (List.mem_cons_of_mem c hx)

theorem jsMatch_concat {p q : List Char} {d : Char} (hp : NoTerm p) (hq : NoTerm q)
    (hqd : NoDigit q) (hd : d.isDigit = true) :
    jsMatch (p ++ d :: q) = some (p, [d], q) := by
  have hall : NoTerm (p ++ d :: q) := by
    intro x hx
    rcases List.mem_append.mp hx with h1 | h1
    · exact hp x h1
    · rcases List.mem_cons.mp h1 with h2 | h2
      · exact h2 ▸ isTermC_eq_false_of_isDigit hd
      · exact hq x h2
  rcases hs : p ++ d :: q with _ | ⟨c, rest⟩
  · exact absurd hs (by simp)
  · rw [jsMatch, ← hs, lineOf_eq_self hall, bt_found hqd hd]

theorem noDigit_of_digitHead_false {rest : List Char} (h1 : digitHead rest = false)
    (h2 : NoDigit rest.tail) : NoDigit rest := by
  cases rest with
  | nil => exact fun c hc => absurd hc (List.not_mem_nil c)
  | cons c r =>
    intro x hx
    rcases List.mem_cons.mp hx with h3 | h3
    · exact h3 ▸ h1
    · exact h2 x h3

theorem bt_capture {revPre rest p ds q : List Char} (hpre : NoTerm revPre)
    (hrest : NoTerm rest) (htail : NoDigit rest.tail)
    (heq : bt revPre rest = some (p, ds, q)) :
    (∃ d, ds = [d] ∧ d.isDigit = true) ∧ NoDigit q ∧ NoTerm p ∧ NoTerm q := by
  induction revPre generalizing rest with
  | nil =>
    rw [bt] at heq
    by_cases hd : digitHead rest = true
    · rw [if_pos hd] at heq
      cases rest with
      | nil => exact absurd hd (by simp [digitHead])
      | cons r0 rtail =>
        have hr0 : r0.isDigit = true := hd
        have htail2 : NoDigit rtail := htail
        injection heq with heq1
        injection heq1 with hp heq2
        injection heq2 with hds hq
        subst hp; subst hds; subst hq
        refine ⟨⟨r0, ?_, hr0⟩, ?_, ?_, ?_⟩
        · simp [List.takeWhile_cons, hr0, takeWhile_isDigit_eq_nil htail2]
        · simp only [List.dropWhile_cons, hr0, if_pos]
          rw [dropWhile_isDigit_eq_self htail2]
          exact htail2
        · exact fun c hc => absurd hc (by simp)
        · simp only [List.dropWhile_cons, hr0, if_pos]
          rw [dropWhile_isDigit_eq_self htail2]
          exact fun x hx => hrest x (List.mem_cons_of_mem r0 hx)
    · rw [if_neg hd] at heq
      exact absurd heq (by simp)
  | cons c r2 ih =>
    rw [bt] at heq
    by_cases hd : digitHead rest = true
    · rw [if_pos hd] at heq
      cases rest with
      | nil => exact absurd hd (by simp [digitHead])
      | cons r0 rtail =>
        have hr0 : r0.isDigit = true := hd
        have htail2 : NoDigit rtail := htail
        injection heq with heq1
        injection heq1 with hp heq2
        injection heq2 with hds hq
        subst hp; subst hds; subst hq
        refine ⟨⟨r0, ?_, hr0⟩, ?_, ?_, ?_⟩
        · simp [List.takeWhile_cons, hr0, takeWhile_isDigit_eq_nil htail2]
        · simp only [List.dropWhile_cons, hr0, if_pos]
          rw [dropWhile_isDigit_eq_self htail2]
          exact htail2
        · exact fun x hx => hpre x (List.mem_reverse.mp hx)
        · simp only [List.dropWhile_cons, hr0, if_pos]
          rw [dropWhile_isDigit_eq_self htail2]
          exact fun x hx => hrest x (List.mem_cons_of_mem r0 hx)
    · rw [if_neg hd] at heq
      refine ih (fun x hx => hpre x (List.mem_cons_of_mem c hx)) ?_ ?_ heq
      · intro x hx
        rcases List.mem_cons.mp hx with h3 | h3
        · exact h3 ▸ hpre c (List.mem_cons_self c r2)
        · exact hrest x h3
      · exact noDigit_of_digitHead_false (Bool.not_eq_true _ ▸ hd) htail

theorem jsMatch_capture {s p ds q : List Char} (heq : jsMatch s = some (p, ds, q)) :
    (∃ d, ds = [d] ∧ d.isDigit = true) ∧ NoDigit q ∧ NoTerm p ∧ NoTerm q := by
  induction s with
  | nil => exact absurd heq (by simp [jsMatch])
  | cons c rest ih =>
    rw [jsMatch] at heq
    rcases hbt : bt (lineOf (c :: rest)).reverse [] with _ | r
    · rw [hbt] at heq
      exact ih heq
    · rw [hbt] at heq
      injection heq with heq1
      subst heq1
      refine bt_capture ?_ ?_ ?_ hbt
      · intro x hx
        have := List.mem_takeWhile_imp (List.mem_reverse.mp hx)
        simpa using this
      · exact fun x hx => absurd hx (List.not_mem_nil x)
      · exact fun x hx => absurd hx (List.not_mem_nil x)

/-! ### Decimal representation facts -/

theorem decReprGo_acc (fuel : Nat) :
    ∀ n acc, decReprGo fuel n acc = decReprGo fuel n [] ++ acc := by
  induction fuel with
  | zero => intro n acc; rfl
  | succ fuel ih =>
    intro n acc
    rw [decReprGo, decReprGo]
    by_cases h : n < 10
    · simp [h]
    · rw [if_neg h, if_neg h, ih (n / 10) (Nat.digitChar (n % 10) :: acc),
        ih (n / 10) [Nat.digitChar (n % 10)]]
      simp

theorem decRepr_lt10 {n : Nat} (h : n < 10) : decRepr n = [Nat.digitChar n] := by
  unfold decRepr decReprGo
  rw [if_pos h, Nat.mod_eq_of_lt h]

theorem decReprGo_all_digit (fuel : Nat) :
    ∀ n acc, (∀ c ∈ acc, c.isDigit = true) → ∀ c ∈ decReprGo fuel n acc, c.isDigit = true := by
  induction fuel with
  | zero => intro n acc hacc; exact hacc
  | succ fuel ih =>
    intro n acc hacc
    rw [decReprGo]
    have hcons : ∀ c ∈ Nat.digitChar (n % 10) :: acc, c.isDigit = true := by
      intro c hc
      rcases List.mem_cons.mp hc with h1 | h1
      · exact h1 ▸ digitChar_isDigit (Nat.mod_lt n (by norm_num))
      · exact hacc c h1
    by_cases h : n < 10
    · rw [if_pos h]; exact hcons
    · rw [if_neg h]; exact ih (n / 10) _ hcons

theorem decRepr_all_digit (n : Nat) : ∀ c ∈ decRepr n, c.isDigit = true :=
  decReprGo_all_digit (n + 1) n [] (fun c hc => absurd hc (List.not_mem_nil c))

theorem valFrom_append (a : Nat) (xs ys : List Char) :
    valFrom a (xs ++ ys) = valFrom (valFrom a xs) ys := by
  unfold valFrom
  rw [List.foldl_append]

theorem decReprGo_val (fuel : Nat) :
    ∀ n, n < fuel → valFrom 0 (decReprGo fuel n []) = n := by
  induction fuel with
  | zero => intro n h; exact absurd h (Nat.not_lt_zero n)
  | succ fuel ih =>
    intro n hn
    rw [decReprGo]
    by_cases h : n < 10
    · rw [if_pos h]
      show valFrom 0 [Nat.digitChar (n % 10)] = n
      unfold valFrom
      simp only [List.foldl, Nat.mod_eq_of_lt h, Nat.mul_zero, Nat.zero_add]
      exact digitVal_digitChar h
    · rw [if_neg h, decReprGo_acc, valFrom_append]
      have h10 : n / 10 < fuel := by
        have h2 : n / 10 < n := Nat.div_lt_self (by omega) (by norm_num)
        omega
      rw [ih (n / 10) h10]
      show 10 * (n / 10) + digitVal (Nat.digitChar (n % 10)) = n
      rw [digitVal_digitChar (Nat.mod_lt n (by norm_num))]
      omega

theorem valFrom_decRepr (n : Nat) : valFrom 0 (decRepr n) = n :=
  decReprGo_val (n + 1) n (Nat.lt_succ_self n)

theorem decRepr_ne_nil (n : Nat) : decRepr n ≠ [] := by
  unfold decRepr decReprGo
  by_cases h : n < 10
  · rw [if_pos h]; simp
  · rw [if_neg h, decReprGo_acc]; simp

/-! ### Marker replacement facts -/

theorem fillStr_cons_eq {rep : List Char} {c : Char} {rest : List Char}
    (hne : ∀ tail, c = '{' → rest = 'n' :: '}' :: tail → False) :
    fillStr rep (c :: rest) = c :: fillStr rep rest := by
  rw [fillStr]
  exact hne

theorem hasMarker_cons_eq {c : Char} {rest : List Char}
    (hne : ∀ tail, c = '{' → rest = 'n' :: '}' :: tail → False) :
    hasMarker (c :: rest) = hasMarker rest := by
  rw [hasMarker]
  exact hne

theorem splitMarker_cons_eq {c : Char} {rest : List Char}
    (hne : ∀ tail, c = '{' → rest = 'n' :: '}' :: tail → False) :
    splitMarker (c :: rest) = (splitMarker rest).map (fun pr => (c :: pr.1, pr.2)) := by
  rw [splitMarker]
  exact hne

theorem fillStr_eq_self {rep s : List Char} (h : hasMarker s = false) :
    fillStr rep s = s := by
  induction s using fillStr.induct rep with
  | case1 rest ih => exact absurd h (by simp [hasMarker])
  | case2 c rest hne ih => rw [fillStr_cons_eq hne, ih (by rwa [hasMarker_cons_eq hne] at h)]
  | case3 => rfl

theorem fillStr_mem {rep s : List Char} {x : Char} (hx : x ∈ fillStr rep s) :
    x ∈ rep ∨ x ∈ s := by
  induction s using fillStr.induct rep with
  | case1 rest ih =>
    rw [fillStr] at hx
    rcases List.mem_append.mp hx with h | h
    · exact Or.inl h
    · rcases ih h with h2 | h2
      · exact Or.inl h2
      · exact Or.inr (by simp [h2])
  | case2 c rest hne ih =>
    rw [fillStr_cons_eq hne] at hx
    rcases List.mem_cons.mp hx with h | h
    · exact Or.inr (by simp [h])
    · rcases ih h with h2 | h2
      · exact Or.inl h2
      · exact Or.inr (List.mem_cons_of_mem c h2)
  | case3 => exact absurd hx (List.not_mem_nil x)

theorem fillStr_decomp {rep q : List Char} (hq : hasMarker q = false) :
    ∀ p, fillStr rep (p ++ marker ++ q) = fillStr rep p ++ rep ++ q := by
  intro p
  induction p using fillStr.induct rep with
  | case1 rest ih =>
    have hsh : ('{' :: 'n' :: '}' :: rest) ++ marker ++ q =
        '{' :: 'n' :: '}' :: (rest ++ marker ++ q) := by simp
    rw [hsh, fillStr, ih, fillStr]
    simp
  | case2 c rest hne ih =>
    have hcond : ∀ tail, c = '{' → rest ++ marker ++ q = 'n' :: '}' :: tail → False := by
      intro tail hc hshape
      rcases rest with _ | ⟨a, rest2⟩
      · simp only [List.nil_append, marker, List.cons_append] at hshape
        injection hshape with h1 h2
        exact absurd h1 (by decide)
      · rcases rest2 with _ | ⟨b, r3⟩
        · simp only [marker, List.cons_append, List.singleton_append, List.nil_append] at hshape
          injection hshape with h1 h2
          injection h2 with h3 h4
          exact absurd h3 (by decide)
        · simp only [List.cons_append] at hshape
          injection hshape with h1 h2
          injection h2 with h3 h4
          exact hne r3 hc (by rw [h1, h3])
    have hsh : (c :: rest) ++ marker ++ q = c :: (rest ++ marker ++ q) := by simp
    rw [hsh, fillStr_cons_eq hcond, ih, fillStr_cons_eq hne]
    simp
  | case3 =>
    show fillStr rep ([] ++ marker ++ q) = fillStr rep [] ++ rep ++ q
    have hsh : ([] : List Char) ++ marker ++ q = '{' :: 'n' :: '}' :: q := by
      simp [marker]
    rw [hsh, fillStr, fillStr_eq_self hq]
    rfl

theorem splitMarker_eq_none {s : List Char} (h : splitMarker s = none) :
    hasMarker s = false := by
  induction s using splitMarker.induct with
  | case1 rest => exact absurd h (by simp [splitMarker])
  | case2 c rest hne ih =>
    rw [splitMarker_cons_eq hne] at h
    rw [hasMarker_cons_eq hne]
    apply ih
    rcases hsp : splitMarker rest with _ | pr
    · rfl
    · rw [hsp] at h; exact absurd h (by simp)
  | case3 => rfl

theorem splitMarker_eq_some {s : List Char} :
    ∀ p q, splitMarker s = some (p, q) → s = p ++ marker ++ q ∧ hasMarker p = false := by
  induction s using splitMarker.induct with
  | case1 rest =>
    intro p q h
    rw [splitMarker] at h
    injection h with h1
    injection h1 with hp hq
    refine ⟨?_, ?_⟩
    · rw [← hp, ← hq]; simp [marker]
    · rw [← hp]; rfl
  | case2 c rest hne ih =>
    intro p q h
    rw [splitMarker_cons_eq hne] at h
    rcases hsp : splitMarker rest with _ | ⟨p2, q2⟩
    · rw [hsp] at h; exact absurd h (by simp)
    · rw [hsp] at h
      simp only [Option.map_some'] at h
      injection h with h1
      injection h1 with hp hq
      obtain ⟨hd, hm2⟩ := ih p2 q2 hsp
      have hcond : ∀ tail, c = '{' → p2 = 'n' :: '}' :: tail → False := by
        intro tail hc hp2
        refine hne (tail ++ marker ++ q2) hc ?_
        rw [hd, hp2]
        simp
      refine ⟨?_, ?_⟩
      · rw [← hp, ← hq, hd]; simp
      · rw [← hp, hasMarker_cons_eq hcond]; exact hm2
  | case3 => intro p q h; exact absurd h (by simp [splitMarker])

/-! ### Renumbering a filled string -/

theorem updateStr_eq_of_match {k : Nat} {s p ds q : List Char}
    (h : jsMatch s = some (p, ds, q)) : updateStr k s = p ++ decRepr k ++ q := by
  rw [updateStr, h]

theorem updateStr_eq_of_none {k : Nat} {s : List Char} (h : jsMatch s = none) :
    updateStr k s = s := by
  rw [updateStr, h]

theorem jsMatch_of_fill_digit {p q : List Char} {k : Nat} (hk : k ≤ 9)
    (hp : NoTerm p) (hq : NoTerm q) (hqd : NoDigit q) :
    jsMatch (p ++ decRepr k ++ q) = some (p, [Nat.digitChar k], q) := by
  rw [decRepr_lt10 (by omega)]
  have hsh : p ++ [Nat.digitChar k] ++ q = p ++ Nat.digitChar k :: q := by simp
  rw [hsh]
  exact jsMatch_concat hp hq hqd (digitChar_isDigit (by omega))

theorem updateStr_idem {k : Nat} (hk : k ≤ 9) (s : List Char) :
    updateStr k (updateStr k s) = updateStr k s := by
  rcases hm : jsMatch s with _ | ⟨p, ds, q⟩
  · rw [updateStr_eq_of_none hm, updateStr_eq_of_none hm]
  · obtain ⟨⟨d, hds, hd⟩, hqd, hp, hq⟩ := jsMatch_capture hm
    rw [updateStr_eq_of_match hm]
    rw [updateStr_eq_of_match (jsMatch_of_fill_digit hk hp hq hqd)]

theorem goodStr_marker_free {s : List Char} (hg : goodStr s = true)
    (hn : splitMarker s = none) : NoDigit s ∧ hasMarker s = false := by
  refine ⟨?_, splitMarker_eq_none hn⟩
  unfold goodStr at hg
  rw [hn] at hg
  intro c hc
  simpa using List.all_eq_true.mp hg c hc

theorem goodStr_split {s p q : List Char} (hg : goodStr s = true)
    (hs : splitMarker s = some (p, q)) :
    s = p ++ marker ++ q ∧ hasMarker p = false ∧ NoTerm p ∧ NoTerm q ∧
      NoDigit q ∧ hasMarker q = false := by
  obtain ⟨h1, h2⟩ := splitMarker_eq_some p q hs
  unfold goodStr at hg
  rw [hs] at hg
  simp only [Bool.and_eq_true, Bool.not_eq_true'] at hg
  obtain ⟨⟨⟨ha, hb⟩, hc⟩, hd⟩ := hg
  refine ⟨h1, h2, ?_, ?_, ?_, hd⟩
  · intro x hx; simpa using List.all_eq_true.mp ha x hx
  · intro x hx; simpa using List.all_eq_true.mp hb x hx
  · intro x hx; simpa using List.all_eq_true.mp hc x hx

theorem updateStr_fillStr {s : List Char} {j k : Nat} (hj : j ≤ 9)
    (hg : goodStr s = true) :
    updateStr k (fillStr (decRepr j) s) = fillStr (decRepr k) s := by
  rcases hsp : splitMarker s with _ | ⟨p, q⟩
  · obtain ⟨hnd, hnm⟩ := goodStr_marker_free hg hsp
    rw [fillStr_eq_self hnm, fillStr_eq_self hnm, updateStr_eq_of_none (jsMatch_eq_none hnd)]
  · obtain ⟨h1, hpm, hpt, hqt, hqd, hqm⟩ := goodStr_split hg hsp
    rw [h1, fillStr_decomp hqm p, fillStr_decomp hqm p,
      fillStr_eq_self hpm, fillStr_eq_self hpm]
    exact updateStr_eq_of_match (jsMatch_of_fill_digit hj hpt hqt hqd)

/-! ### Tree facts -/

theorem elemInd (motive : Elem → Prop)
    (step : ∀ tag attrs text ctrl children,
      (∀ c ∈ children, motive c) → motive (.mk tag attrs text ctrl children)) :
    ∀ e, motive e := by
  intro e
  refine Elem.rec (motive_1 := motive) (motive_2 := fun cs => ∀ c ∈ cs, motive c)
    ?_ ?_ ?_ e
  · intro tag attrs text ctrl cs ih
    exact step tag attrs text ctrl cs ih
  · intro c hc
    exact absurd hc (List.not_mem_nil c)
  · intro hd tl ih1 ih2 c hc
    rcases List.mem_cons.mp hc with h1 | h2
    · exact h1 ▸ ih1
    · exact ih2 c h2

theorem fillEs_eq_map (n : Nat) (cs : List Elem) : fillEs n cs = cs.map (fillE n) := by
  induction cs with
  | nil => rw [fillEs]; rfl
  | cons c cs ih => rw [fillEs, ih]; rfl

theorem updateEs_eq_map (k : Nat) (cs : List Elem) : updateEs k cs = cs.map (updateE k) := by
  induction cs with
  | nil => rw [updateEs]; rfl
  | cons c cs ih => rw [updateEs, ih]; rfl

theorem goodElems_eq_all (cs : List Elem) : goodElems cs = cs.all goodElem := by
  induction cs with
  | nil => rw [goodElems]; rfl
  | cons c cs ih => rw [goodElems, ih]; rfl

theorem goodElem_parts {tag : String} {attrs : List (String × List Char)}
    {text : List Char} {ctrl : CtrlInfo} {cs : List Elem}
    (h : goodElem (.mk tag attrs text ctrl cs) = true) :
    (∀ a ∈ attrs, goodStr a.2 = true) ∧ (isLbl tag = true → goodStr text = true) ∧
      ∀ c ∈ cs, goodElem c = true := by
  rw [goodElem, goodElems_eq_all] at h
  simp only [Bool.and_eq_true, List.all_eq_true, Bool.or_eq_true, Bool.not_eq_true'] at h
  obtain ⟨⟨h1, h2⟩, h3⟩ := h
  refine ⟨h1, ?_, h3⟩
  intro hl
  rcases h2 with h2 | h2
  · rw [hl] at h2; exact absurd h2 (by simp)
  · exact h2

theorem updateE_fillE {j : Nat} (hj : j ≤ 9) (k : Nat) :
    ∀ t : Elem, goodElem t = true → updateE k (fillE j t) = fillE k t := by
  intro t
  induction t using elemInd with
  | step tag attrs text ctrl cs ih =>
    intro ht
    obtain ⟨ha, hx, hc⟩ := goodElem_parts ht
    rw [fillE, updateE, fillE]
    congr 1
    · rw [List.map_map]
      apply List.map_congr_left
      intro a ha2
      simp only [Function.comp_apply]
      rw [updateStr_fillStr hj (ha a ha2)]
    · by_cases hl : isLbl tag = true
      · rw [if_pos hl, if_pos hl, if_pos hl, updateStr_fillStr hj (hx hl)]
      · rw [if_neg hl, if_neg hl, if_neg hl]
    · rw [fillEs_eq_map, updateEs_eq_map, fillEs_eq_map, List.map_map]
      apply List.map_congr_left
      intro c hcc
      simp only [Function.comp_apply]
      exact ih c hcc (hc c hcc)

theorem updateE_idem_tree {k : Nat} (hk : k ≤ 9) :
    ∀ g : Elem, updateE k (updateE k g) = updateE k g := by
  intro g
  induction g using elemInd with
  | step tag attrs text ctrl cs ih =>
    rw [updateE, updateE]
    congr 1
    · rw [List.map_map]
      apply List.map_congr_left
      intro a ha2
      simp only [Function.comp_apply]
      rw [updateStr_idem hk]
    · by_cases hl : isLbl tag = true
      · rw [if_pos hl, if_pos hl, updateStr_idem hk]
      · rw [if_neg hl, if_neg hl]
    · rw [updateEs_eq_map, updateEs_eq_map, List.map_map]
      apply List.map_congr_left
      intro c hcc
      simp only [Function.comp_apply]
      exact ih c hcc

/-! ### Aggregator facts -/

theorem specContribution_eq_entriesOf {d : Elem} (h : isCtrlTag d.tag = true) :
    specContribution d = entriesOf d.ctrl := by
  unfold specContribution entriesOf
  rw [h]
  by_cases h1 : d.ctrl.name = "" <;> by_cases h2 : d.ctrl.disabled <;>
    simp [h1, h2]

theorem specContribution_eq_nil {d : Elem} (h : isCtrlTag d.tag = false) :
    specContribution d = [] := by
  unfold specContribution
  rw [h]
  rfl

theorem filter_flatMap_entries (l : List Elem) :
    (l.filter fun d => isCtrlTag d.tag).flatMap (fun d => entriesOf d.ctrl) =
      l.flatMap specContribution := by
  induction l with
  | nil => rfl
  | cons d ds ih =>
    rw [List.filter_cons, List.flatMap_cons]
    by_cases hp : isCtrlTag d.tag = true
    · rw [if_pos (by simp [hp]), List.flatMap_cons, ih, specContribution_eq_entriesOf hp]
    · rw [if_neg (by simp [hp]), ih,
        specContribution_eq_nil (Bool.not_eq_true _ ▸ hp), List.nil_append]

/-! ### Collection bookkeeping facts -/

theorem updateFormValue_groups (s : CState) : (updateFormValue s).groups = s.groups := rfl

theorem updateFormValue_template (s : CState) :
    (updateFormValue s).template = s.template := rfl

theorem effMin_updateFormValue (s : CState) : effMin (updateFormValue s) = effMin s := rfl

theorem effMax_updateFormValue (s : CState) : effMax (updateFormValue s) = effMax s := rfl

theorem findIdxFrom_lt {p : Group → Bool} :
    ∀ {l : List Group} {i : Nat}, findIdxFrom p l = some i → i < l.length := by
  intro l
  induction l with
  | nil => intro i h; exact absurd h (by simp [findIdxFrom])
  | cons g gs ih =>
    intro i h
    rw [findIdxFrom] at h
    by_cases hp : p g = true
    · rw [if_pos hp] at h
      injection h with h1
      subst h1
      simp
    · rw [if_neg hp] at h
      rcases hfi : findIdxFrom p gs with _ | j
      · rw [hfi] at h; exact absurd h (by simp)
      · rw [hfi] at h
        simp only [Option.map_some'] at h
        injection h with h1
        subst h1
        have := ih hfi
        simp only [List.length_cons]
        omega

theorem spliceOne_length : ∀ (l : List Group) (i : Nat), i < l.length →
    (spliceOne l i).length = l.length - 1 := by
  intro l
  induction l with
  | nil => intro i h; simp at h
  | cons g gs ih =>
    intro i h
    cases i with
    | zero => rw [spliceOne]; simp
    | succ i2 =>
      rw [spliceOne]
      simp only [List.length_cons]
      rw [ih i2 (by simpa using h)]
      have : 0 < gs.length := by
        have := (by simpa using h : i2 + 1 ≤ gs.length); omega
      omega

theorem spliceOne_get_lt : ∀ (l : List Group) (i j : Nat) (hj : j < i)
    (h2 : j < (spliceOne l i).length) (h3 : j < l.length),
    (spliceOne l i).get ⟨j, h2⟩ = l.get ⟨j, h3⟩ := by
  intro l
  induction l with
  | nil => intro i j hj h2 h3; simp at h3
  | cons g gs ih =>
    intro i j hj h2 h3
    cases i with
    | zero => omega
    | succ i2 =>
      cases j with
      | zero => rfl
      | succ j2 =>
        have hlen : j2 < (spliceOne gs i2).length := by
          have h4 : j2 + 1 < (g :: spliceOne gs i2).length := h2
          simpa using h4
        exact ih i2 j2 (by omega) hlen (by simpa using h3)

theorem spliceOne_get_ge : ∀ (l : List Group) (i j : Nat) (hij : i ≤ j)
    (h2 : j < (spliceOne l i).length) (h3 : j + 1 < l.length),
    (spliceOne l i).get ⟨j, h2⟩ = l.get ⟨j + 1, h3⟩ := by
  intro l
  induction l with
  | nil => intro i j hij h2 h3; simp at h3
  | cons g gs ih =>
    intro i j hij h2 h3
    cases i with
    | zero => rfl
    | succ i2 =>
      cases j with
      | zero => omega
      | succ j2 =>
        have hlen : j2 < (spliceOne gs i2).length := by
          have h4 : j2 + 1 < (g :: spliceOne gs i2).length := h2
          simpa using h4
        exact ih i2 j2 (by omega) hlen (by simpa using h3)

theorem renumberFrom_length : ∀ (k : Nat) (l : List Group),
    (renumberFrom k l).length = l.length := by
  intro k l
  induction l generalizing k with
  | nil => rfl
  | cons g gs ih => rw [renumberFrom]; simp [ih]

theorem renumberFrom_get : ∀ (l : List Group) (k j : Nat)
    (h : j < (renumberFrom k l).length) (h2 : j < l.length),
    (renumberFrom k l).get ⟨j, h⟩ =
      { l.get ⟨j, h2⟩ with element := updateE (k + j) (l.get ⟨j, h2⟩).element } := by
  intro l
  induction l with
  | nil => intro k j h h2; simp at h2
  | cons g gs ih =>
    intro k j h h2
    cases j with
    | zero => rfl
    | succ j2 =>
      have hlen : j2 < (renumberFrom (k + 1) gs).length := by
        have h4 : j2 + 1 <
            ({ g with element := updateE k g.element } :: renumberFrom (k + 1) gs).length := h
        simpa using h4
      rw [show k + (j2 + 1) = k + 1 + j2 by omega]
      exact ih (k + 1) j2 hlen (by simpa using h2)

theorem get_append_left (l1 l2 : List Group) (i : Nat) (h : i < l1.length)
    (h2 : i < (l1 ++ l2).length) : (l1 ++ l2).get ⟨i, h2⟩ = l1.get ⟨i, h⟩ :=
  List.get_append i h

theorem get_append_last : ∀ (l : List Group) (x : Group)
    (h : l.length < (l ++ [x]).length), (l ++ [x]).get ⟨l.length, h⟩ = x := by
  intro l x
  induction l with
  | nil => intro h; rfl
  | cons g gs ih => intro h; exact ih (by simpa using h)

/-! ### Parsing the min and max attributes -/

theorem isJsSpace_eq_false_of_isDigit {c : Char} (h : c.isDigit = true) :
    isJsSpace c = false := by
  by_contra hc
  rw [Bool.not_eq_false] at hc
  unfold isJsSpace at hc
  simp only [Bool.or_eq_true, decide_eq_true_eq] at hc
  rcases hc with (((((h1 | h1) | h1) | h1) | h1) | h1) | h1 <;> subst h1 <;>
    exact absurd h (by decide)

theorem ne_minus_of_isDigit {c : Char} (h : c.isDigit = true) : ¬c = '-' := by
  intro heq
  rw [heq] at h
  exact absurd h (by decide)

theorem ne_plus_of_isDigit {c : Char} (h : c.isDigit = true) : ¬c = '+' := by
  intro heq
  rw [heq] at h
  exact absurd h (by decide)

theorem takeWhile_digits_append {ds rest : List Char}
    (hds : ∀ c ∈ ds, c.isDigit = true) (hrest : digitHead rest = false) :
    (ds ++ rest).takeWhile Char.isDigit = ds := by
  induction ds with
  | nil =>
    cases rest with
    | nil => rfl
    | cons r rtail =>
      simp only [List.nil_append, List.takeWhile_cons]
      rw [show r.isDigit = false from hrest]
      rfl
  | cons d ds2 ih =>
    simp only [List.cons_append, List.takeWhile_cons]
    rw [hds d (List.mem_cons_self d ds2)]
    rw [ih fun c hc => hds c (List.mem_cons_of_mem d hc)]
    rfl

theorem parseIntJs_digits (ds rest : List Char) (hne : ds ≠ [])
    (hds : ∀ c ∈ ds, c.isDigit = true) (hrest : digitHead rest = false) :
    parseIntJs (ds ++ rest) = some ((valFrom 0 ds : Nat) : Int) := by
  rcases ds with _ | ⟨d, ds2⟩
  · exact absurd rfl hne
  · have hd : d.isDigit = true := hds d (List.mem_cons_self d ds2)
    have hdw : ((d :: ds2) ++ rest).dropWhile isJsSpace = d :: (ds2 ++ rest) := by
      rw [List.cons_append, List.dropWhile_cons, isJsSpace_eq_false_of_isDigit hd]
      rfl
    unfold parseIntJs
    rw [hdw, parseIntSigned]
    rw [if_neg (ne_minus_of_isDigit hd), if_neg (ne_plus_of_isDigit hd)]
    unfold leadDigits
    rw [show d :: (ds2 ++ rest) = (d :: ds2) ++ rest from rfl,
      takeWhile_digits_append hds hrest]
    rfl

theorem leadDigits_eq_none {u : List Char} (h : NoDigit u) : leadDigits u = none := by
  unfold leadDigits
  rw [takeWhile_isDigit_eq_nil h]
  rfl

theorem parseIntJs_eq_none {s : List Char} (h : NoDigit s) : parseIntJs s = none := by
  unfold parseIntJs
  have hsub : NoDigit (s.dropWhile isJsSpace) := fun c hc =>
    h c ((List.dropWhile_sublist _).subset hc)
  cases hd : s.dropWhile isJsSpace with
  | nil => rw [parseIntSigned]
  | cons c u =>
    have hcu : NoDigit (c :: u) := hd ▸ hsub
    have hu : NoDigit u := fun x hx => hcu x (List.mem_cons_of_mem c hx)
    rw [parseIntSigned]
    by_cases h1 : c = '-'
    · rw [if_pos h1, leadDigits_eq_none hu]; rfl
    · rw [if_neg h1]
      by_cases h2 : c = '+'
      · rw [if_pos h2, leadDigits_eq_none hu]; rfl
      · rw [if_neg h2, leadDigits_eq_none hcu]; rfl

theorem intRepr_natCast (n : Nat) : intRepr (n : Int) = decRepr n := by
  unfold intRepr
  rw [if_neg (by simp), Int.toNat_natCast]

theorem parseIntJs_decRepr (n : Nat) : parseIntJs (decRepr n) = some (n : Int) := by
  have h1 : decRepr n ++ [] = decRepr n := by simp
  rw [← h1, parseIntJs_digits (decRepr n) [] (decRepr_ne_nil n) (decRepr_all_digit n) rfl,
    valFrom_decRepr]

/-! ### Case analyses of the structural operations -/

theorem addGroup_cases (s : CState) :
    addGroup s = (s, none) ∨
    ∃ t, s.template = some t ∧
      (∀ m, effMax s = some m → s.groups.length < m) ∧
      addGroup s =
        (updateFormValue { s with
            groups := s.groups ++
              [⟨s.nextId, fillE (s.groups.length + 1) t, s.groups.length⟩],
            nextId := s.nextId + 1 },
          some (⟨s.nextId, fillE (s.groups.length + 1) t, s.groups.length⟩,
            s.groups.length + 1)) := by
  unfold addGroup addGroupCore
  split
  next m hmx =>
    by_cases hlen : m ≤ s.groups.length
    · rw [if_pos hlen]; exact Or.inl rfl
    · rw [if_neg hlen]
      split
      next htm => exact Or.inl rfl
      next t htm =>
        refine Or.inr ⟨t, htm, ?_, ?_⟩
        · intro m2 hm2
          rw [hmx] at hm2
          injection hm2 with h1
          omega
        · simp [updateFormValue]
  next hmx =>
    split
    next htm => exact Or.inl rfl
    next t htm =>
      refine Or.inr ⟨t, htm, ?_, ?_⟩
      · intro m2 hm2
        rw [hmx] at hm2
        exact absurd hm2 (by simp)
      · simp [updateFormValue]

theorem removeGroup_cases (s : CState) (gid : Nat) :
    removeGroup s gid = (s, none) ∨
    ∃ i, ∃ hi : i < s.groups.length,
      findIdxFrom (fun g => g.id == gid) s.groups = some i ∧
      effMin s < s.groups.length ∧
      removeGroup s gid =
        (updateFormValue { s with groups := renumberFrom 1 (spliceOne s.groups i) },
          some (s.groups.get ⟨i, hi⟩,
            (renumberFrom 1 (spliceOne s.groups i)).length)) := by
  unfold removeGroup
  split
  next hfi => exact Or.inl rfl
  next i hfi =>
    by_cases hmin : s.groups.length ≤ effMin s
    · rw [if_pos hmin]; exact Or.inl rfl
    · rw [if_neg hmin]
      have hi : i < s.groups.length := findIdxFrom_lt hfi
      split
      next hnone =>
        exact absurd hnone (by rw [List.getElem?_eq_getElem hi]; simp)
      next removed hrem =>
        have hr2 : removed = s.groups.get ⟨i, hi⟩ := by
          rw [List.getElem?_eq_getElem hi] at hrem
          injection hrem with h1
          exact h1.symm
        refine Or.inr ⟨i, hi, hfi, by omega, ?_⟩
        rw [hr2]
        rfl

theorem addGroup_summary (s : CState) :
    (addGroup s).1.minAttr = s.minAttr ∧ (addGroup s).1.maxAttr = s.maxAttr ∧
      (addGroup s).1.template = s.template ∧
      ((addGroup s).1.groups.length = s.groups.length ∨
        ((addGroup s).1.groups.length = s.groups.length + 1 ∧
          ∀ m, effMax s = some m → s.groups.length < m)) := by
  rcases addGroup_cases s with heq | ⟨t, htm, hlt, heq⟩
  · rw [heq]; exact ⟨rfl, rfl, rfl, Or.inl rfl⟩
  · rw [heq]
    refine ⟨rfl, rfl, rfl, Or.inr ⟨?_, hlt⟩⟩
    simp [updateFormValue]

theorem removeGroup_summary (s : CState) (gid : Nat) :
    (removeGroup s gid).1.minAttr = s.minAttr ∧
      (removeGroup s gid).1.maxAttr = s.maxAttr ∧
      (removeGroup s gid).1.template = s.template ∧
      ((removeGroup s gid).1.groups.length = s.groups.length ∨
        ((removeGroup s gid).1.groups.length = s.groups.length - 1 ∧
          effMin s < s.groups.length)) := by
  rcases removeGroup_cases s gid with heq | ⟨i, hi, hfi, hlt, heq⟩
  · rw [heq]; exact ⟨rfl, rfl, rfl, Or.inl rfl⟩
  · rw [heq]
    refine ⟨rfl, rfl, rfl, Or.inr ⟨?_, hlt⟩⟩
    show (renumberFrom 1 (spliceOne s.groups i)).length = s.groups.length - 1
    rw [renumberFrom_length, spliceOne_length _ _ hi]

theorem stepOp_template (s : CState) (o : Op) : (stepOp s o).template = s.template := by
  cases o with
  | add => exact (addGroup_summary s).2.2.1
  | remove gid => exact (removeGroup_summary s gid).2.2.1
  | setMin v => rfl
  | setMax v => rfl

/-! ### Preservation of the length bounds -/

theorem inBounds_iff (s : CState) :
    inBounds s = true ↔
      (effMin s ≤ s.groups.length ∧ ∀ m, effMax s = some m → s.groups.length ≤ m) := by
  unfold inBounds
  cases hmx : effMax s with
  | none => simp
  | some m => simp

theorem inBounds_stepOp {s : CState} {o : Op} (ho : isStructural o = true)
    (h : inBounds s = true) : inBounds (stepOp s o) = true := by
  rw [inBounds_iff] at h
  obtain ⟨h1, h2⟩ := h
  cases o with
  | add =>
    show inBounds (addGroup s).1 = true
    obtain ⟨hm1, hm2, _, hlen⟩ := addGroup_summary s
    have hemin : effMin (addGroup s).1 = effMin s := by unfold effMin; rw [hm1]
    have hemax : effMax (addGroup s).1 = effMax s := by unfold effMax; rw [hm1, hm2]
    rw [inBounds_iff, hemin, hemax]
    rcases hlen with hl | ⟨hl, hstrict⟩
    · exact ⟨hl ▸ h1, fun m hm => hl ▸ h2 m hm⟩
    · refine ⟨by omega, fun m hm => ?_⟩
      have := hstrict m hm
      omega
  | remove gid =>
    show inBounds (removeGroup s gid).1 = true
    obtain ⟨hm1, hm2, _, hlen⟩ := removeGroup_summary s gid
    have hemin : effMin (removeGroup s gid).1 = effMin s := by unfold effMin; rw [hm1]
    have hemax : effMax (removeGroup s gid).1 = effMax s := by unfold effMax; rw [hm1, hm2]
    rw [inBounds_iff, hemin, hemax]
    rcases hlen with hl | ⟨hl, hstrict⟩
    · exact ⟨hl ▸ h1, fun m hm => hl ▸ h2 m hm⟩
    · refine ⟨by omega, fun m hm => ?_⟩
      have := h2 m hm
      omega
  | setMin v => exact absurd ho (by simp [isStructural])
  | setMax v => exact absurd ho (by simp [isStructural])

/-! ### Preservation of the numbering invariant -/

theorem numbered_stepOp {t : Elem} (ht : goodElem t = true) {s : CState} (o : Op)
    (hT : s.template = some t) (hN : Numbered t s) (hlen : s.groups.length ≤ 9) :
    Numbered t (stepOp s o) := by
  cases o with
  | setMin v => exact fun i h => hN i h
  | setMax v => exact fun i h => hN i h
  | add =>
    rcases addGroup_cases s with heq | ⟨t2, htm2, hlt, heq⟩
    · show Numbered t (addGroup s).1
      rw [heq]
      exact hN
    · have ht2 : t2 = t := by
        rw [hT] at htm2
        injection htm2 with h1
        exact h1.symm
      rw [ht2] at heq
      show Numbered t (addGroup s).1
      rw [heq]
      intro i hi
      have hi2 : i <
          (s.groups ++
            [(⟨s.nextId, fillE (s.groups.length + 1) t, s.groups.length⟩ : Group)]).length :=
        hi
      have hlen2 :
          (s.groups ++
            [(⟨s.nextId, fillE (s.groups.length + 1) t, s.groups.length⟩ : Group)]).length =
            s.groups.length + 1 := by simp
      by_cases hcase : i < s.groups.length
      · have hget := get_append_left s.groups
          [⟨s.nextId, fillE (s.groups.length + 1) t, s.groups.length⟩] i hcase hi2
        exact (congrArg Group.element hget).trans (hN i hcase)
      · have hieq : i = s.groups.length := by
          rw [hlen2] at hi2
          omega
        subst hieq
        have hget := get_append_last s.groups
          ⟨s.nextId, fillE (s.groups.length + 1) t, s.groups.length⟩ hi2
        exact congrArg Group.element hget
  | remove gid =>
    rcases removeGroup_cases s gid with heq | ⟨i, hi, hfi, hlt, heq⟩
    · show Numbered t (removeGroup s gid).1
      rw [heq]
      exact hN
    · show Numbered t (removeGroup s gid).1
      rw [heq]
      intro j hj
      have hj2 : j < (renumberFrom 1 (spliceOne s.groups i)).length := hj
      have hjsp : j < (spliceOne s.groups i).length := by
        rw [renumberFrom_length] at hj2
        exact hj2
      have hsplen : (spliceOne s.groups i).length = s.groups.length - 1 :=
        spliceOne_length _ _ hi
      have hrn := renumberFrom_get (spliceOne s.groups i) 1 j hj2 hjsp
      refine (congrArg Group.element hrn).trans ?_
      show updateE (1 + j) ((spliceOne s.groups i).get ⟨j, hjsp⟩).element = fillE (j + 1) t
      by_cases hcase : j < i
      · rw [spliceOne_get_lt _ i j hcase hjsp (by omega)]
        rw [hN j (by omega), show 1 + j = j + 1 by omega]
        exact updateE_fillE (by omega) (j + 1) t ht
      · rw [spliceOne_get_ge _ i j (by omega) hjsp (by omega)]
        rw [hN (j + 1) (by omega), show 1 + j = j + 1 by omega]
        exact updateE_fillE (by omega) (j + 1) t ht

/-! ### The claims -/

/-- C1 (amended): the round trip only recovers `n` for single-digit numbers
and for templates whose text after the last marker has no digits.  For every
prefix `p` and suffix `q` with no line terminators, where `q` contains no
digit and no marker, and every `n` with `1 ≤ n ≤ 9`, filling the template
`p ++ marker ++ q` with `n` and extracting the number back out with the
Pattern Matcher yields exactly `n`.  (As originally stated — for every
positive `n` — the claim fails: see the counterexample with `n = 12`.) -/
theorem C1_fill_roundtrip (p q : List Char) (n : Nat) (h1 : 1 ≤ n) (h9 : n ≤ 9)
    (hp : NoTerm p) (hq : NoTerm q) (hqd : NoDigit q) (hqm : hasMarker q = false) :
    extractNum (fillStr (decRepr n) (p ++ marker ++ q)) = some n := by
  rw [fillStr_decomp hqm p]
  have hP : NoTerm (fillStr (decRepr n) p) := by
    intro c hc
    rcases fillStr_mem hc with h | h
    · exact isTermC_eq_false_of_isDigit (decRepr_all_digit n c h)
    · exact hp c h
  unfold extractNum
  rw [jsMatch_of_fill_digit h9 hP hq hqd]
  simp only [Option.map_some']
  congr 1
  have hv : valFrom 0 [Nat.digitChar n] = digitVal (Nat.digitChar n) := by
    unfold valFrom
    simp [List.foldl]
  rw [hv, digitVal_digitChar (by omega)]

/-- Witness for C1: filling `stop-` ++ marker with 7 and extracting gives 7. -/
theorem C1_fill_roundtrip_witness :
    extractNum (fillStr (decRepr 7) ("stop-".toList ++ marker ++ [])) = some 7 :=
  C1_fill_roundtrip "stop-".toList [] 7 (by decide) (by decide) (by decide) (by decide)
    (by decide) (by decide)

/-- Counterexample to C1 as stated: filling the template consisting of just
the marker with `n = 12` and extracting yields 2, not 12 — the Pattern
Matcher captures only the last digit. -/
theorem C1_counterexample :
    extractNum (fillStr (decRepr 12) marker) = some 2 ∧
      some 2 ≠ some (12 : Nat) := by decide

/-- C2 (amended): the numbering invariant holds for good templates and
bounded traces.  Assume the template is good (`goodElem`: every attribute
value and every LABEL/LEGEND text either has no digits and no marker, or
has exactly one marker, no line terminators, and no digits after the
marker), the initial collection is correctly numbered, and every state
along the operation sequence keeps at most nine groups.  Then after the
sequence the Group at every position `i` is the template filled with
sequence number `i + 1`.  Both restrictions are necessary: a template text
such as `Stop ` ++ marker ++ ` of 10` (digits after the marker) breaks the
invariant on a single remove, because renumbering rewrites the last digit
of `10`; and once ten groups exist the invariant fails even for good
templates (see the counterexample). -/
theorem C2_numbering (t : Elem) (s : CState) (ops : List Op) (ht : goodElem t = true)
    (hT : s.template = some t) (hN : Numbered t s) (htr : traceLe9 s ops = true) :
    Numbered t (runOps s ops) := by
  induction ops generalizing s with
  | nil => exact hN
  | cons o ops ih =>
    rw [traceLe9] at htr
    simp only [Bool.and_eq_true, decide_eq_true_eq] at htr
    obtain ⟨hlen, htr2⟩ := htr
    show Numbered t (runOps (stepOp s o) ops)
    exact ih (stepOp s o) ((stepOp_template s o).trans hT)
      (numbered_stepOp ht o hT hN hlen) htr2

/-- Witness for C2: a concrete add followed by a remove keeps every group's
element equal to the template filled with its position plus one. -/
theorem C2_numbering_witness :
    goodElem stopTemplate = true ∧ initSample.template = some stopTemplate ∧
      traceLe9 initSample [Op.add, Op.remove 1] = true ∧
      Numbered stopTemplate (runOps initSample [Op.add, Op.remove 1]) := by
  refine ⟨by decide, rfl, by decide, ?_⟩
  refine C2_numbering stopTemplate initSample [Op.add, Op.remove 1] (by decide) rfl ?_
    (by decide)
  intro i h
  have hl : initSample.groups.length = 1 := rfl
  rw [hl] at h
  have hi0 : i = 0 := by omega
  subst hi0
  rfl

/-- Counterexample to C2 as stated: grow the collection to ten groups and
remove the first; the renumbering pass turns the old group `stop-10` at
position 8 into `stop-19` instead of `stop-9`, so its displayed number is
not `position + 1`. -/
theorem C2_counterexample :
    ((runOps initSample (List.replicate 9 Op.add ++ [Op.remove 1])).groups.map
        fun g => g.element.attrs)[8]? = some [("id", "stop-19".toList)] ∧
      some [("id", "stop-19".toList)] ≠ some [("id", "stop-9".toList)] := by decide

/-- C3 (amended): the Pattern Matcher does not capture the rightmost maximal
digit run; it captures only a single digit.  On a string with no digits it
returns none, and on `p ++ d :: q` where `q` has no digits (so `d` is the
last digit), `p` and `q` have no line terminators, and `d` is a digit, it
returns prefix `p`, digits `[d]` and suffix `q`.  (As originally stated the
claim fails on `a12`: see the counterexample.) -/
theorem C3_matcher_last_digit :
    (∀ s : List Char, NoDigit s → jsMatch s = none) ∧
    (∀ (p q : List Char) (d : Char), NoTerm p → NoTerm q → NoDigit q →
      d.isDigit = true → jsMatch (p ++ d :: q) = some (p, [d], q)) :=
  ⟨fun s h => jsMatch_eq_none h, fun p q d hp hq hqd hd => jsMatch_concat hp hq hqd hd⟩

/-- Witness for C3 at concrete strings. -/
theorem C3_matcher_last_digit_witness :
    jsMatch ("ab".toList ++ '7' :: "cd".toList) =
        some ("ab".toList, ['7'], "cd".toList) ∧
      jsMatch "abc".toList = none :=
  ⟨C3_matcher_last_digit.2 "ab".toList "cd".toList '7' (by decide) (by decide)
      (by decide) (by decide),
    C3_matcher_last_digit.1 "abc".toList (by decide)⟩

/-- Counterexample to C3 as stated: on `a12` the rightmost maximal digit run
is `12` with prefix `a`, but the matcher returns prefix `a1` and digits `2`
(the greedy first group backtracks only one character). -/
theorem C3_counterexample :
    jsMatch "a12".toList = some ("a1".toList, "2".toList, []) ∧
      jsMatch "a12".toList ≠ some ("a".toList, "12".toList, []) := by decide

/-- C4 (amended): renumbering is idempotent for single-digit numbers: for
every already-concrete group element `g` and every `k` with `1 ≤ k ≤ 9`,
applying the renumberer twice with `k` yields the same element — hence the
same attribute values and label/legend text — as applying it once.  (As
originally stated — for every positive `k` — the claim fails at `k = 12`:
see the counterexample.) -/
theorem C4_renumber_idempotent (g : Elem) (k : Nat) (hk1 : 1 ≤ k) (hk9 : k ≤ 9) :
    updateE k (updateE k g) = updateE k g :=
  updateE_idem_tree hk9 g

/-- Witness for C4 at a concrete element and `k = 3`. -/
theorem C4_renumber_idempotent_witness :
    1 ≤ 3 ∧ 3 ≤ 9 ∧
      updateE 3 (updateE 3 (Elem.mk "INPUT" [("id", "stop-1".toList)] [] sampleCtrl [])) =
        updateE 3 (Elem.mk "INPUT" [("id", "stop-1".toList)] [] sampleCtrl []) :=
  ⟨by decide, by decide,
    C4_renumber_idempotent (Elem.mk "INPUT" [("id", "stop-1".toList)] [] sampleCtrl []) 3
      (by decide) (by decide)⟩

/-- Counterexample to C4 as stated: renumbering `stop-5` with `k = 12` once
gives `stop-12`, but a second pass rewrites only the last digit and gives
`stop-112`, so the attribute values differ. -/
theorem C4_counterexample :
    (updateE 12 (updateE 12
        (Elem.mk "INPUT" [("id", "stop-5".toList)] [] sampleCtrl []))).attrs ≠
      (updateE 12 (Elem.mk "INPUT" [("id", "stop-5".toList)] [] sampleCtrl [])).attrs := by
  decide

/-- C5 (amended): the bounds are preserved by every add and remove from a
state already within them — an add is refused at the maximum and a remove
at the minimum, with no partial application — but initialization itself
need not establish them: with no children it creates exactly one group
even when `min` exceeds 1 (see the counterexample). -/
theorem C5_bounds_preserved (s : CState) (ops : List Op)
    (hops : ∀ o ∈ ops, isStructural o = true) (h : inBounds s = true) :
    inBounds (runOps s ops) = true := by
  induction ops generalizing s with
  | nil => exact h
  | cons o ops ih =>
    show inBounds (runOps (stepOp s o) ops) = true
    exact ih (stepOp s o) (fun o2 ho2 => hops o2 (List.mem_cons_of_mem o ho2))
      (inBounds_stepOp (hops o (List.mem_cons_self o ops)) h)

/-- Witness for C5 on a concrete trace of adds and a remove. -/
theorem C5_bounds_preserved_witness :
    (∀ o ∈ [Op.add, Op.add, Op.remove 1], isStructural o = true) ∧
      inBounds initSample = true ∧
      inBounds (runOps initSample [Op.add, Op.add, Op.remove 1]) = true :=
  ⟨by decide, by decide,
    C5_bounds_preserved initSample [Op.add, Op.add, Op.remove 1] (by decide) (by decide)⟩

/-- Counterexample to C5 as stated: initializing with `min="2"` and no
pre-existing children creates a single group, so the reachable initial
state already violates `length >= min`. -/
theorem C5_counterexample :
    effMin (connectedInit (some "2".toList) none (some stopTemplate) []) = 2 ∧
      (connectedInit (some "2".toList) none (some stopTemplate) []).groups.length = 1 ∧
      inBounds (connectedInit (some "2".toList) none (some stopTemplate) []) = false := by
  decide

/-- C6: constraint refusals are silent atomic no-ops.  When `max` is set and
`length >= max`, `add` returns the state unchanged and fires no event; when
`length <= min`, `remove` returns the state unchanged and fires no event
(whatever id is passed). -/
theorem C6_refusals_silent :
    (∀ (s : CState) (m : Nat), effMax s = some m → m ≤ s.groups.length →
      addGroup s = (s, none)) ∧
    (∀ (s : CState) (gid : Nat), s.groups.length ≤ effMin s →
      removeGroup s gid = (s, none)) := by
  constructor
  · intro s m hm hlen
    unfold addGroup
    split
    next m2 hmx =>
      rw [hm] at hmx
      injection hmx with h1
      subst h1
      rw [if_pos hlen]
    next hmx =>
      rw [hm] at hmx
      exact absurd hmx (by simp)
  · intro s gid hlen
    unfold removeGroup
    split
    next => rfl
    next i hfi => rw [if_pos hlen]

/-- Witness for C6 at the spec's Scenario C and Scenario D states. -/
theorem C6_refusals_silent_witness :
    effMax maxedState = some 2 ∧ 2 ≤ maxedState.groups.length ∧
      addGroup maxedState = (maxedState, none) ∧
      minnedState.groups.length ≤ effMin minnedState ∧
      removeGroup minnedState 1 = (minnedState, none) :=
  ⟨by decide, by decide,
    C6_refusals_silent.1 maxedState 2 (by decide) (by decide),
    by decide,
    C6_refusals_silent.2 minnedState 1 (by decide)⟩

/-- C7 (amended): an empty `min` attribute string resolves to the default 1
silently, with no warning (contrary to the claim as stated — see the
counterexample); every nonempty attribute string equal to the canonical
decimal string of a positive integer resolves to that integer without a
warning, and every other nonempty string resolves to the default 1 with a
warning.  The statements carry a 15-character bound, within which the
model's exact integers agree with JS double arithmetic. -/
theorem C7_min_validation :
    jsMinGet (some []) = (1, false) ∧
    (∀ (s : List Char) (n : Nat), s.length ≤ 15 → 1 ≤ n → s = decRepr n →
      jsMinGet (some s) = (n, false)) ∧
    (∀ s : List Char, s ≠ [] → s.length ≤ 15 →
      (∀ n : Nat, 1 ≤ n → s ≠ decRepr n) → jsMinGet (some s) = (1, true)) := by
  refine ⟨rfl, ?_, ?_⟩
  · intro s n hlen hn hs
    subst hs
    have hemp : (decRepr n).isEmpty = false := by
      cases hd : decRepr n with
      | nil => exact absurd hd (decRepr_ne_nil n)
      | cons a l => rfl
    rw [jsMinGet, if_neg (by simp [hemp]), parseIntJs_decRepr n, jsMinParsed]
    rw [if_neg (by omega)]
    rw [if_neg (show ¬decRepr n ≠ intRepr (n : Int) from by
      rw [intRepr_natCast]
      exact fun hne => hne rfl)]
    rw [Int.toNat_natCast]
  · intro s hne hlen hcl
    have hemp : s.isEmpty = false := by
      cases hd : s with
      | nil => exact absurd hd hne
      | cons a l => rfl
    rw [jsMinGet, if_neg (by simp [hemp])]
    rcases hp : parseIntJs s with _ | v
    · rw [jsMinParsed]
    · rw [jsMinParsed]
      by_cases hv : v ≤ 0
      · rw [if_pos hv]
      · rw [if_neg hv]
        by_cases hs2 : s ≠ intRepr v
        · rw [if_pos hs2]
        · push_neg at hs2
          exfalso
          refine hcl v.toNat (by omega) ?_
          rw [hs2]
          unfold intRepr
          rw [if_neg (by omega)]

/-- Witness for C7: a clean positive string is accepted as is, a non-numeric
string falls back with a warning. -/
theorem C7_min_validation_witness :
    jsMinGet (some "3".toList) = (3, false) ∧
      jsMinGet (some "a".toList) = (1, true) :=
  ⟨C7_min_validation.2.1 "3".toList 3 (by decide) (by decide) (by decide),
    C7_min_validation.2.2 "a".toList (by decide) (by decide)
      (fun n hn heq =>
        absurd (decRepr_all_digit n 'a' (heq ▸ (by decide : 'a' ∈ "a".toList)))
          (by decide))⟩

/-- Counterexample to C7 as stated: the empty attribute string is not a
clean positive integer, yet the getter returns the default 1 with no
warning reported. -/
theorem C7_counterexample :
    jsMinGet (some "".toList) = (1, false) ∧
      ((1 : Nat), false) ≠ ((1 : Nat), true) := by decide

/-- C8 (amended): the `max` getter prefix-parses the attribute with
`parseInt` rather than requiring it to denote an integer.  A missing
attribute leaves the limit unset with no warning; an attribute with no
digits at all parses to `NaN` and is rejected (unset, warning); and for an
attribute that starts with a digit run of at most 15 characters — so that
JS double arithmetic is exact — the parsed prefix is rejected with a
warning when it does not exceed the effective `min`, and otherwise becomes
the effective max even for non-integer strings such as `5.9` (see the
counterexample).  The `min` attribute, when present, is likewise bounded
to 15 characters so that the effective min in the model agrees with the
source. -/
theorem C8_max_validation :
    (∀ mn : Option (List Char), jsMaxGet none mn = (none, false)) ∧
    (∀ (s : List Char) (mn : Option (List Char)), NoDigit s →
      jsMaxGet (some s) mn = (none, true)) ∧
    (∀ (ds rest : List Char) (mn : Option (List Char)), ds ≠ [] →
      ds.length ≤ 15 → (∀ c ∈ ds, c.isDigit = true) → digitHead rest = false →
      (∀ s2, mn = some s2 → s2.length ≤ 15) →
      ((valFrom 0 ds : Int) ≤ ((jsMinGet mn).1 : Int) →
        jsMaxGet (some (ds ++ rest)) mn = (none, true)) ∧
      (((jsMinGet mn).1 : Int) < (valFrom 0 ds : Int) →
        jsMaxGet (some (ds ++ rest)) mn = (some (valFrom 0 ds), false))) := by
  refine ⟨fun mn => rfl, ?_, ?_⟩
  · intro s mn hnd
    rw [jsMaxGet, parseIntJs_eq_none hnd, jsMaxParsed]
  · intro ds rest mn hne hdslen hds hrest hmn
    constructor
    · intro hle
      rw [jsMaxGet, parseIntJs_digits ds rest hne hds hrest, jsMaxParsed, if_pos hle]
    · intro hgt
      rw [jsMaxGet, parseIntJs_digits ds rest hne hds hrest, jsMaxParsed,
        if_neg (by omega), Int.toNat_natCast]

/-- Witness for C8: the string `5.9` parses to 5, which exceeds the default
min of 1, so the effective max becomes 5 with no warning; a digit-free
string is rejected with a warning. -/
theorem C8_max_validation_witness :
    jsMaxGet (some ("5".toList ++ ".9".toList)) none = (some 5, false) ∧
      jsMaxGet (some "abc".toList) none = (none, true) := by
  constructor
  · have h := (C8_max_validation.2.2 "5".toList ".9".toList none (by decide) (by decide)
      (by decide) (by decide) (fun s2 h2 => nomatch h2)).2 (by decide)
    exact h
  · exact C8_max_validation.2.1 "abc".toList none (by decide)

/-- Counterexample to C8 as stated: `5.9` does not denote an integer, so the
claim requires the max to be unset with a warning, but the getter accepts it
as 5 with no warning. -/
theorem C8_counterexample :
    jsMaxGet (some "5.9".toList) none = (some 5, false) ∧
      ((some 5 : Option Nat), false) ≠ ((none : Option Nat), true) := by decide

/-- C9: the aggregation contract.  For every collection of group elements,
the aggregator produces, in group order then document order within each
group, exactly the entries the spec's contribution rule assigns to each
descendant: named, enabled input-bearing descendants contribute — checkbox
and radio controls `(name, value-or-on)` only when checked, file controls
one entry per selected file, all other controls `(name, currentValue)`
unconditionally — and every other descendant contributes nothing. -/
theorem C9_aggregation_contract (gs : List Elem) : aggregate gs = aggregateSpec gs := by
  unfold aggregate aggregateSpec
  induction gs with
  | nil => rfl
  | cons g gs ih =>
    rw [List.flatMap_cons, List.flatMap_cons, ih, filter_flatMap_entries]

/-- C10: changing the `min` or `max` configuration attributes after
initialization never changes the group list (so neither the number of
groups nor any group's element content) — it only re-renders and
republishes the aggregated value — and the collection length changes only
through add and remove operations. -/
theorem C10_attr_change_frame :
    (∀ (s : CState) (v : Option (List Char)),
      (stepOp s (Op.setMin v)).groups = s.groups ∧
        (stepOp s (Op.setMin v)).published =
          aggregate (s.groups.map fun g => g.element)) ∧
    (∀ (s : CState) (v : Option (List Char)),
      (stepOp s (Op.setMax v)).groups = s.groups ∧
        (stepOp s (Op.setMax v)).published =
          aggregate (s.groups.map fun g => g.element)) ∧
    (∀ (s : CState) (o : Op), (stepOp s o).groups.length ≠ s.groups.length →
      o = Op.add ∨ ∃ gid, o = Op.remove gid) := by
  refine ⟨fun s v => ⟨rfl, rfl⟩, fun s v => ⟨rfl, rfl⟩, ?_⟩
  intro s o h
  cases o with
  | add => exact Or.inl rfl
  | remove gid => exact Or.inr ⟨gid, rfl⟩
  | setMin v => exact absurd rfl h
  | setMax v => exact absurd rfl h

/-- Witness for C10 at a concrete state: a `min` change leaves the groups
untouched, and a length-changing operation is an add. -/
theorem C10_attr_change_frame_witness :
    (stepOp initSample (Op.setMin (some "3".toList))).groups = initSample.groups ∧
      (Op.add = Op.add ∨ ∃ gid, Op.add = Op.remove gid) :=
  ⟨(C10_attr_change_frame.1 initSample (some "3".toList)).1,
    C10_attr_change_frame.2.2 initSample Op.add (by decide)⟩

end FormRepeatable
